import Mathlib

/-!
Verification of the wikipedia wiki-markup lexer and its stream consumers.

The tokenizer (`lexArticle` and its helper state functions in `lexer.go`) is
embedded as a fuel-indexed recursive function `lexA` over the line's
characters.  The lexer state (`input`, `start`, `pos`) is represented by the
pair `pending` (the characters between `start` and `pos`, i.e. the pending
text of the next emitted token) and `rest` (the characters from `pos` on).
`emit` corresponds to producing an item whose `val` is `pending ++ consumed`
and continuing with an empty pending buffer.  The fuel of a whole-line run is
`input.length + 1`; every dispatch step consumes at least one character, so
this fuel is sufficient (proved below as `lexA_agree` / `lexA_total`).

Character classification (`unicode.IsLetter` etc.) and the lenient XML
tokenizer (`encoding/xml.RawToken`) are external library collaborators, so
they are parameters of the embedding: a `CharClass` bundles the five
classification predicates, and an `XmlReader` returns how many characters a
single lenient XML parse consumes (`none` models a parse error, which in the
Go code panics and aborts the whole run; the run result is then `none`).
`asciiClass` instantiates the classifiers exactly as the Go `unicode`
package behaves on the ASCII range.
-/

/-- The `itemType` enumeration of `lexer.go`. -/
inductive ItemType where
  | itemError
  | itemEOF
  | itemLeftMeta
  | itemRightMeta
  | itemLeftTag
  | itemRightTag
  | itemNumber
  | itemWord
  | itemQuote
  | itemSpace
  | itemMark
  | itemXML
  | itemTitle
deriving DecidableEq, Repr

open ItemType

/-- The `item` struct of `lexer.go`: a token kind together with the exact
text matched (as a character list). -/
structure Item where
  typ : ItemType
  val : List Char
deriving DecidableEq, Repr

/-- The apostrophe character, written via its code point. -/
def quoteChar : Char := Char.ofNat 39

/-- The double-quote character, written via its code point. -/
def dquoteChar : Char := Char.ofNat 34

/-- The backquote character, written via its code point. -/
def bquoteChar : Char := Char.ofNat 96

/-- The five Unicode classification predicates from Go's `unicode` package
used by the lexer (`IsLetter`, `IsDigit`, `IsMark`, `IsSymbol`, `IsPunct`).
They are external library collaborators, so the embedding is parametric in
them. -/
structure CharClass where
  isLetter : Char → Bool
  isDigit : Char → Bool
  isMark : Char → Bool
  isSymbol : Char → Bool
  isPunct : Char → Bool

/-- `isSpace` of `lexer.go`: space or tab. -/
def isSpace (c : Char) : Bool := c = ' ' || c = '\t'

/-- `isAlphaNumeric` of `lexer.go`: underscore, letter or digit. -/
def isAlphaNumeric (cc : CharClass) (c : Char) : Bool :=
  c = '_' || cc.isLetter c || cc.isDigit c

/-- The embedded lenient XML tokenizer (`xml.NewDecoder` with
`Strict = false`, one `RawToken` call).  `rawToken s` returns the number of
characters the single XML parse consumes from `s`, or `none` on a parse
error (which the Go code turns into a panic that kills the process).  A
successful parse consumes at least one and at most all of the remaining
characters, matching `u - v` in `lexXML` where `u` and `v` are the reader
lengths before and after the parse. -/
structure XmlReader where
  rawToken : List Char → Option Nat
  consumes : ∀ s n, rawToken s = some n → 1 ≤ n ∧ n ≤ s.length

/-- The scanning loop of `lexWord`: returns the run of absorbed characters
and the unconsumed remainder.  A character is absorbed when it is
alphanumeric, a hyphen, or an apostrophe, except that an apostrophe
immediately followed by another apostrophe stops the word before both. -/
def wordRun (cc : CharClass) : List Char → List Char × List Char
  | [] => ([], [])
  | c :: rs =>
    if c = quoteChar ∧ rs.head? = some quoteChar then ([], c :: rs)
    else if isAlphaNumeric cc c ∨ c = '-' ∨ c = quoteChar then
      ((c :: (wordRun cc rs).1), (wordRun cc rs).2)
    else ([], c :: rs)

/-- `emit` followed by continuing the scan: prepend the item to the rest of
the run's output (propagating a fatal XML failure). -/
def emitC (i : Item) (k : Option (List Item)) : Option (List Item) :=
  k.map fun ts => i :: ts

/-- The outcome of the `switch` dispatch in `lexArticle` of `lexer.go` on
the character `c` just read (cases are tried in source order; `dDrop` is
the fall-through default that emits nothing). -/
inductive Dispatch where
  | dLeftMeta
  | dRightMeta
  | dLeftTag
  | dRightTag
  | dQuote
  | dXML
  | dTitle
  | dSpace
  | dMark
  | dWord
  | dDrop
deriving DecidableEq, Repr

open Dispatch

/-- The `switch` of `lexArticle`: which case fires for the consumed
character `c`, whose successor in the input is `nextc` (`none` at end of
line).  The cases are evaluated in the Go source order, first match wins. -/
def dispatch (cc : CharClass) (c : Char) (nextc : Option Char) : Dispatch :=
  if c = '{' ∧ nextc = some '{' then dLeftMeta
  else if c = '}' ∧ nextc = some '}' then dRightMeta
  else if c = '[' ∧ nextc = some '[' then dLeftTag
  else if c = ']' ∧ nextc = some ']' then dRightTag
  else if c = quoteChar then dQuote
  else if c = '<' then dXML
  else if c = '=' then dTitle
  else if isSpace c then dSpace
  else if cc.isMark c ∨ cc.isSymbol c ∨ cc.isPunct c then dMark
  else if isAlphaNumeric cc c then dWord
  else dDrop

/-- One dispatch step of `lexArticle` of `lexer.go`, together with the
sub-states `lexQuote`, `lexXML`, `lexTitle`, `lexSpace`, `lexWord` it
transfers to (each of which scans its maximal run and emits, here inlined
as the emitted item's text).  `pending` is `input[start:pos]`, `rest` is
`input[pos:]`; `next` continues the run. -/
def lexBody (xr : XmlReader) (cc : CharClass)
    (next : List Char → List Char → Option (List Item))
    (pending rest : List Char) : Option (List Item) :=
  match rest with
    | [] => some [⟨itemEOF, pending⟩]
    | c :: rs =>
      match dispatch cc c rs.head? with
      | dLeftMeta =>
        emitC ⟨itemLeftMeta, pending ++ ['{', '{']⟩ (next [] rs.tail)
      | dRightMeta =>
        emitC ⟨itemRightMeta, pending ++ ['}', '}']⟩ (next [] rs.tail)
      | dLeftTag =>
        emitC ⟨itemLeftTag, pending ++ ['[', '[']⟩ (next [] rs.tail)
      | dRightTag =>
        emitC ⟨itemRightTag, pending ++ [']', ']']⟩ (next [] rs.tail)
      | dQuote =>
        emitC ⟨itemQuote, pending ++ c :: rs.takeWhile (· == quoteChar)⟩
          (next [] (rs.dropWhile (· == quoteChar)))
      | dXML =>
        match xr.rawToken (c :: rs) with
        | none => none
        | some n =>
          emitC ⟨itemXML, pending ++ (c :: rs).take n⟩
            (next [] ((c :: rs).drop n))
      | dTitle =>
        emitC ⟨itemTitle, pending ++ c :: rs.takeWhile (· == '=')⟩
          (next [] (rs.dropWhile (· == '=')))
      | dSpace =>
        emitC ⟨itemSpace, pending ++ c :: rs.takeWhile isSpace⟩
          (next [] (rs.dropWhile isSpace))
      | dMark =>
        emitC ⟨itemMark, pending ++ [c]⟩ (next [] rs)
      | dWord =>
        emitC ⟨itemWord, pending ++ c :: (wordRun cc rs).1⟩
          (next [] ((wordRun cc rs).2))
      | dDrop => next (pending ++ [c]) rs

/-- The lexer state machine run to completion: iterate `lexBody`.  The
first argument is fuel; every step consumes at least one character, and the
whole-line entry point `lexLine` supplies `input.length + 1`, which never
runs out (`lexA_total`). -/
def lexA (xr : XmlReader) (cc : CharClass) :
    Nat → List Char → List Char → Option (List Item)
  | 0, _, _ => none
  | f + 1, pending, rest => lexBody xr cc (lexA xr cc f) pending rest

/-- Tokenizing one whole input line: `lex` / `run` of `lexer.go` for a fresh
lexer state on `input`, collecting the items sent over the channel.  `none`
models the fatal panic on an XML parse error. -/
def lexLine (xr : XmlReader) (cc : CharClass) (input : List Char) :
    Option (List Item) :=
  lexA xr cc (input.length + 1) [] input

/-- The digits accepted by `lexNumber`. -/
def digitChars : List Char := ['0', '1', '2', '3', '4', '5', '6', '7', '8', '9']

/-- `lexNumber` of `lexer.go`, defined but never reached by the dispatch of
`lexArticle`: a run of digits, optionally a dot and more digits; a trailing
alphanumeric character makes it emit an error item instead (the Go code
wraps the offending text `input[start:pos]` in a message, modelled here by
the offending text itself).  Returns the emitted item and the remaining
characters. -/
def lexNumber (cc : CharClass) (pending rest : List Char) : Item × List Char :=
  let t1 := rest.takeWhile (fun c => digitChars.contains c)
  let r1 := rest.dropWhile (fun c => digitChars.contains c)
  let t2 := if r1.head? = some '.' then
      t1 ++ '.' :: r1.tail.takeWhile (fun c => digitChars.contains c) else t1
  let r2 := if r1.head? = some '.' then
      r1.tail.dropWhile (fun c => digitChars.contains c) else r1
  match r2.head? with
  | some c2 =>
    if isAlphaNumeric cc c2 then (⟨itemError, pending ++ t2 ++ [c2]⟩, r2.tail)
    else (⟨itemNumber, pending ++ t2⟩, r2)
  | none => (⟨itemNumber, pending ++ t2⟩, r2)

/-- Go's `unicode` classifiers restricted to the ASCII range (on which all
concrete inputs below live): letters are `a`-`z`/`A`-`Z`, digits `0`-`9`,
no ASCII character is a mark, the symbol and punctuation classes list the
ASCII characters of Unicode categories S and P.  All other characters
(controls in particular) are in no class, exactly as in Go. -/
def asciiClass : CharClass where
  isLetter c := c.isAlpha
  isDigit c := c.isDigit
  isMark _ := false
  isSymbol c := ['$', '+', '<', '=', '>', '^', bquoteChar, '|', '~'].contains c
  isPunct c :=
    ['!', dquoteChar, '#', '%', '&', quoteChar, '(', ')', '*', ',', '-', '.',
      '/', ':', ';', '?', '@', '[', '\\', ']', '_', '{', '}'].contains c

/-- An XML reader for lines that contain no inline XML: any parse attempt
fails. -/
def noXml : XmlReader where
  rawToken _ := none
  consumes := by intro s n h; simp at h

/-- An XML reader that consumes one character when possible: used to show
runs always complete when the XML collaborator never fails. -/
def oneXml : XmlReader where
  rawToken s := if s.length = 0 then none else some 1
  consumes := by
    intro s n h
    by_cases hs : s.length = 0 <;> simp [hs] at h
    omega

/-- `parseBracket` of the driver: starting from `depth`, pull items until the
depth (incremented at `left`, decremented at `right`) reaches zero or an
`itemEOF` arrives; returns the unconsumed remainder of the stream. -/
def parseBracket (left right : ItemType) : Int → List Item → List Item
  | _, [] => []
  | depth, s :: rest =>
    if s.typ = itemEOF then rest
    else
      let d1 : Int := if s.typ = left then depth + 1 else depth
      let d2 : Int := if s.typ = right then d1 - 1 else d1
      if d2 = 0 then rest else parseBracket left right d2 rest

/-- The accumulation loop of `parseLink`: `text` is the buffer built so far;
returns the final buffer and the unconsumed remainder of the stream. -/
def parseLinkAux (text : List Item) : List Item → List Item × List Item
  | [] => (text, [])
  | s :: rest =>
    if s.typ = itemEOF then (text, rest)
    else
      let t1 := text ++ [s]
      let t2 := if s.typ = itemMark ∧ s.val = ['|'] then [] else t1
      if s.typ = itemRightTag then (t2, rest) else parseLinkAux t2 rest

/-- `parseLink` of the driver: accumulate items, resetting the buffer at
every `Mark` item with text `|`, stopping at `itemRightTag` (kept in the
buffer) or `itemEOF`. -/
def parseLink (stream : List Item) : List Item × List Item :=
  parseLinkAux [] stream

/-- The accumulation loop of `parseTitle`. -/
def parseTitleAux (result : List Item) : List Item → List Item × List Item
  | [] => (result, [])
  | s :: rest =>
    if s.typ = itemEOF then (result, rest)
    else
      let r1 := result ++ [s]
      if s.typ = itemTitle then (r1, rest) else parseTitleAux r1 rest

/-- `parseTitle` of the driver: accumulate every item until the next
`itemTitle` (kept in the buffer) or `itemEOF`.  The `level` parameter is
received but never used, as in the Go code. -/
def parseTitle (level : Nat) (stream : List Item) : List Item × List Item :=
  parseTitleAux [] stream

/-- `printElement` of the driver: only `Word`, `Space` and `Mark` items
contribute their text to the rendered output. -/
def printElement (elt : Item) : List Char :=
  if elt.typ = itemWord ∨ elt.typ = itemSpace ∨ elt.typ = itemMark
  then elt.val else []

/-- Rendering a returned item sequence: concatenation of `printElement`. -/
def render (items : List Item) : List Char :=
  (items.map printElement).flatten

/-- Every character of `pending` fell through the whole dispatch (was
"silently dropped"), relative to the successor it actually has in
`pending ++ rest`.  This is the invariant relating the lexer state to the
dispatch outcomes that produced it. -/
def pendingOK (cc : CharClass) : List Char → List Char → Prop
  | [], _ => True
  | c :: p, rest =>
    dispatch cc c ((p ++ rest).head?) = dDrop ∧ pendingOK cc p rest

/-- The concatenation of the texts of a list of items. -/
def joinVals (items : List Item) : List Char :=
  (items.map Item.val).flatten

/-- The running template-nesting balance of `parseBracket` over a list of
items: the count of `itemLeftMeta` items minus the count of
`itemRightMeta` items. -/
def metaBal (l : List Item) : Int :=
  (l.countP (fun s => s.typ == itemLeftMeta) : Int) -
  (l.countP (fun s => s.typ == itemRightMeta) : Int)

/-- An XML reader behaving as Go's lenient decoder does on inputs whose
single leading construct spans exactly `k` characters (`0 < k`): the parse
consumes `k` characters when that many are available and fails otherwise. -/
def xmlConsume (k : Nat) : XmlReader where
  rawToken s := if k ≤ s.length ∧ 1 ≤ k then some k else none
  consumes := by
    intro s n h
    dsimp only at h
    by_cases hs : k ≤ s.length ∧ 1 ≤ k
    · rw [if_pos hs] at h
      obtain rfl := Option.some.inj h
      omega
    · rw [if_neg hs] at h
      exact absurd h (by simp)

/-- The line `<ref name="x"/>` of the spec's XML scenario, 15 characters. -/
def refLine : List Char :=
  ['<', 'r', 'e', 'f', ' ', 'n', 'a', 'm', 'e', '=', dquoteChar, 'x',
    dquoteChar, '/', '>']

theorem emitC_eq_some {i : Item} {k : Option (List Item)} {toks : List Item} :
    emitC i k = some toks ↔ ∃ ts, k = some ts ∧ toks = i :: ts := by
  cases k <;> simp [emitC, eq_comm]

theorem dropWhile_length_le {α : Type} (p : α → Bool) (l : List α) :
    (l.dropWhile p).length ≤ l.length := by
  induction l with
  | nil => simp
  | cons a l ih =>
    by_cases h : p a
    · rw [List.dropWhile_cons_of_pos h]; exact Nat.le_succ_of_le ih
    · rw [List.dropWhile_cons_of_neg (by simpa using h)]

theorem takeWhile_self {α : Type} (p : α → Bool) (l : List α) :
    (l.takeWhile p).takeWhile p = l.takeWhile p := by
  induction l with
  | nil => simp
  | cons a l ih =>
    by_cases h : p a
    · rw [List.takeWhile_cons_of_pos h, List.takeWhile_cons_of_pos h, ih]
    · rw [List.takeWhile_cons_of_neg (by simpa using h)]; simp

theorem dropWhile_takeWhile {α : Type} (p : α → Bool) (l : List α) :
    (l.takeWhile p).dropWhile p = [] := by
  induction l with
  | nil => simp
  | cons a l ih =>
    by_cases h : p a
    · rw [List.takeWhile_cons_of_pos h, List.dropWhile_cons_of_pos h, ih]
    · rw [List.takeWhile_cons_of_neg (by simpa using h)]; simp

theorem takeWhile_head? {α : Type} (p : α → Bool) (l : List α) :
    (l.takeWhile p).head? = none ∨ (l.takeWhile p).head? = l.head? := by
  induction l with
  | nil => simp
  | cons a l ih =>
    by_cases h : p a
    · rw [List.takeWhile_cons_of_pos h]; right; rfl
    · rw [List.takeWhile_cons_of_neg (by simpa using h)]; left; rfl

theorem wordRun_append (cc : CharClass) (l : List Char) :
    (wordRun cc l).1 ++ (wordRun cc l).2 = l := by
  induction l with
  | nil => simp [wordRun]
  | cons c rs ih =>
    by_cases h1 : c = quoteChar ∧ rs.head? = some quoteChar
    · simp [wordRun, h1]
    · by_cases h2 : isAlphaNumeric cc c ∨ c = '-' ∨ c = quoteChar
      · simp [wordRun, h1, h2, ih]
      · simp [wordRun, h1, h2]

theorem wordRun_snd_length_le (cc : CharClass) (l : List Char) :
    (wordRun cc l).2.length ≤ l.length := by
  have h := congrArg List.length (wordRun_append cc l)
  rw [List.length_append] at h
  omega

theorem wordRun_fst_head (cc : CharClass) (l : List Char) :
    (wordRun cc l).1.head? = none ∨ (wordRun cc l).1.head? = l.head? := by
  cases l with
  | nil => left; simp [wordRun]
  | cons c rs =>
    by_cases h1 : c = quoteChar ∧ rs.head? = some quoteChar
    · left; simp [wordRun, h1]
    · by_cases h2 : isAlphaNumeric cc c ∨ c = '-' ∨ c = quoteChar
      · right; simp [wordRun, h1, h2]
      · left; simp [wordRun, h1, h2]

theorem wordRun_self (cc : CharClass) (l : List Char) :
    wordRun cc (wordRun cc l).1 = ((wordRun cc l).1, []) := by
  induction l with
  | nil => simp [wordRun]
  | cons c rs ih =>
    by_cases h1 : c = quoteChar ∧ rs.head? = some quoteChar
    · simp [wordRun, h1]
    · by_cases h2 : isAlphaNumeric cc c ∨ c = '-' ∨ c = quoteChar
      · have hstep : wordRun cc (c :: rs) =
          ((c :: (wordRun cc rs).1), (wordRun cc rs).2) := by
          simp [wordRun, h1, h2]
        rw [hstep]
        have hpair : ¬ (c = quoteChar ∧ (wordRun cc rs).1.head? = some quoteChar) := by
          rintro ⟨rfl, hh⟩
          rcases wordRun_fst_head cc rs with h | h
          · rw [h] at hh; exact Option.noConfusion hh
          · exact h1 ⟨rfl, h ▸ hh⟩
        simp only [wordRun, if_neg hpair, if_pos h2, ih]
      · simp [wordRun, h1, h2]

theorem lexA_succ (xr : XmlReader) (cc : CharClass) (f : Nat) (p r : List Char) :
    lexA xr cc (f + 1) p r = lexBody xr cc (lexA xr cc f) p r := rfl

theorem lexA_agree (xr : XmlReader) (cc : CharClass) :
    ∀ (n : Nat) (r : List Char), r.length ≤ n →
      ∀ f g p, r.length < f → r.length < g →
        lexA xr cc f p r = lexA xr cc g p r := by
  intro n
  induction n with
  | zero =>
    rintro (_ | ⟨c, rs⟩) hr f g p hf hg
    · obtain ⟨f, rfl⟩ : ∃ k, f = k + 1 := ⟨f - 1, by omega⟩
      obtain ⟨g, rfl⟩ : ∃ k, g = k + 1 := ⟨g - 1, by omega⟩
      rfl
    · simp at hr
  | succ n ih =>
    rintro (_ | ⟨c, rs⟩) hr f g p hf hg
    · obtain ⟨f, rfl⟩ : ∃ k, f = k + 1 := ⟨f - 1, by omega⟩
      obtain ⟨g, rfl⟩ : ∃ k, g = k + 1 := ⟨g - 1, by omega⟩
      rfl
    · obtain ⟨f, rfl⟩ : ∃ k, f = k + 1 := ⟨f - 1, by omega⟩
      obtain ⟨g, rfl⟩ : ∃ k, g = k + 1 := ⟨g - 1, by omega⟩
      have hrs : rs.length ≤ n := by simpa using hr
      have hf' : rs.length < f := by simpa using hf
      have hg' : rs.length < g := by simpa using hg
      have step : ∀ (X : List Char), X.length ≤ rs.length → ∀ q,
          lexA xr cc f q X = lexA xr cc g q X := fun X hX q =>
        ih X (le_trans hX hrs) f g q (lt_of_le_of_lt hX hf')
          (lt_of_le_of_lt hX hg')
      have htail : rs.tail.length ≤ rs.length := by
        cases rs <;> simp
      rw [lexA_succ, lexA_succ]
      simp only [lexBody]
      cases hdp : dispatch cc c rs.head? <;> dsimp only
      case dLeftMeta => exact congrArg _ (step _ htail _)
      case dRightMeta => exact congrArg _ (step _ htail _)
      case dLeftTag => exact congrArg _ (step _ htail _)
      case dRightTag => exact congrArg _ (step _ htail _)
      case dQuote => exact congrArg _ (step _ (dropWhile_length_le _ _) _)
      case dXML =>
        cases hx : xr.rawToken (c :: rs) <;> dsimp only
        case some m =>
          obtain ⟨hm1, hm2⟩ := xr.consumes _ _ hx
          have hd : ((c :: rs).drop m).length ≤ rs.length := by
            simp only [List.length_drop, List.length_cons]
            omega
          exact congrArg _ (step _ hd _)
      case dTitle => exact congrArg _ (step _ (dropWhile_length_le _ _) _)
      case dSpace => exact congrArg _ (step _ (dropWhile_length_le _ _) _)
      case dMark => exact congrArg _ (step _ le_rfl _)
      case dWord => exact congrArg _ (step _ (wordRun_snd_length_le _ _) _)
      case dDrop => exact step rs le_rfl _

/-- With an XML collaborator that never fails (on the nonempty inputs it is
ever given), every run with sufficient fuel completes. -/
theorem lexA_total (xr : XmlReader) (cc : CharClass)
    (hxr : ∀ c s, xr.rawToken (c :: s) ≠ none) :
    ∀ f p r, r.length < f → ∃ toks, lexA xr cc f p r = some toks := by
  intro f
  induction f with
  | zero => intro p r h; omega
  | succ f ih =>
    intro p r h
    cases r with
    | nil => exact ⟨_, rfl⟩
    | cons c rs =>
      have hlen : rs.length < f := by simpa using h
      have step : ∀ (X : List Char), X.length ≤ rs.length → ∀ (i : Item),
          ∃ toks, emitC i (lexA xr cc f [] X) = some toks := by
        intro X hX i
        obtain ⟨ts, hts⟩ := ih [] X (lt_of_le_of_lt hX hlen)
        exact ⟨i :: ts, by rw [hts]; rfl⟩
      have htail : rs.tail.length ≤ rs.length := by cases rs <;> simp
      rw [lexA_succ]
      simp only [lexBody]
      cases hdp : dispatch cc c rs.head? <;> dsimp only
      case dLeftMeta => exact step _ htail _
      case dRightMeta => exact step _ htail _
      case dLeftTag => exact step _ htail _
      case dRightTag => exact step _ htail _
      case dQuote => exact step _ (dropWhile_length_le _ _) _
      case dXML =>
        cases hx : xr.rawToken (c :: rs) <;> dsimp only
        case none => exact absurd hx (hxr c rs)
        case some m =>
          obtain ⟨hm1, hm2⟩ := xr.consumes _ _ hx
          have hd : ((c :: rs).drop m).length ≤ rs.length := by
            simp only [List.length_drop, List.length_cons]
            omega
          exact step _ hd _
      case dTitle => exact step _ (dropWhile_length_le _ _) _
      case dSpace => exact step _ (dropWhile_length_le _ _) _
      case dMark => exact step _ le_rfl _
      case dWord => exact step _ (wordRun_snd_length_le _ _) _
      case dDrop => exact ih (p ++ [c]) rs hlen

theorem dispatch_eq_leftMeta {cc : CharClass} {c : Char} {n : Option Char}
    (h : dispatch cc c n = dLeftMeta) : c = '{' ∧ n = some '{' := by
  unfold dispatch at h
  split at h
  · next hc => exact hc
  split at h
  · exact absurd h (by decide)
  split at h
  · exact absurd h (by decide)
  split at h
  · exact absurd h (by decide)
  split at h
  · exact absurd h (by decide)
  split at h
  · exact absurd h (by decide)
  split at h
  · exact absurd h (by decide)
  split at h
  · exact absurd h (by decide)
  split at h
  · exact absurd h (by decide)
  split at h
  · exact absurd h (by decide)
  exact absurd h (by decide)

theorem dispatch_eq_rightMeta {cc : CharClass} {c : Char} {n : Option Char}
    (h : dispatch cc c n = dRightMeta) : c = '}' ∧ n = some '}' := by
  unfold dispatch at h
  split at h
  · exact absurd h (by decide)
  split at h
  · next hc => exact hc
  split at h
  · exact absurd h (by decide)
  split at h
  · exact absurd h (by decide)
  split at h
  · exact absurd h (by decide)
  split at h
  · exact absurd h (by decide)
  split at h
  · exact absurd h (by decide)
  split at h
  · exact absurd h (by decide)
  split at h
  · exact absurd h (by decide)
  split at h
  · exact absurd h (by decide)
  exact absurd h (by decide)

theorem dispatch_eq_leftTag {cc : CharClass} {c : Char} {n : Option Char}
    (h : dispatch cc c n = dLeftTag) : c = '[' ∧ n = some '[' := by
  unfold dispatch at h
  split at h
  · exact absurd h (by decide)
  split at h
  · exact absurd h (by decide)
  split at h
  · next hc => exact hc
  split at h
  · exact absurd h (by decide)
  split at h
  · exact absurd h (by decide)
  split at h
  · exact absurd h (by decide)
  split at h
  · exact absurd h (by decide)
  split at h
  · exact absurd h (by decide)
  split at h
  · exact absurd h (by decide)
  split at h
  · exact absurd h (by decide)
  exact absurd h (by decide)

theorem dispatch_eq_rightTag {cc : CharClass} {c : Char} {n : Option Char}
    (h : dispatch cc c n = dRightTag) : c = ']' ∧ n = some ']' := by
  unfold dispatch at h
  split at h
  · exact absurd h (by decide)
  split at h
  · exact absurd h (by decide)
  split at h
  · exact absurd h (by decide)
  split at h
  · next hc => exact hc
  split at h
  · exact absurd h (by decide)
  split at h
  · exact absurd h (by decide)
  split at h
  · exact absurd h (by decide)
  split at h
  · exact absurd h (by decide)
  split at h
  · exact absurd h (by decide)
  split at h
  · exact absurd h (by decide)
  exact absurd h (by decide)

theorem dispatch_eq_quote {cc : CharClass} {c : Char} {n : Option Char}
    (h : dispatch cc c n = dQuote) : c = quoteChar := by
  unfold dispatch at h
  split at h
  · exact absurd h (by decide)
  split at h
  · exact absurd h (by decide)
  split at h
  · exact absurd h (by decide)
  split at h
  · exact absurd h (by decide)
  split at h
  · next hc => exact hc
  split at h
  · exact absurd h (by decide)
  split at h
  · exact absurd h (by decide)
  split at h
  · exact absurd h (by decide)
  split at h
  · exact absurd h (by decide)
  split at h
  · exact absurd h (by decide)
  exact absurd h (by decide)

theorem dispatch_eq_title {cc : CharClass} {c : Char} {n : Option Char}
    (h : dispatch cc c n = dTitle) : c = '=' := by
  unfold dispatch at h
  split at h
  · exact absurd h (by decide)
  split at h
  · exact absurd h (by decide)
  split at h
  · exact absurd h (by decide)
  split at h
  · exact absurd h (by decide)
  split at h
  · exact absurd h (by decide)
  split at h
  · exact absurd h (by decide)
  split at h
  · next hc => exact hc
  split at h
  · exact absurd h (by decide)
  split at h
  · exact absurd h (by decide)
  split at h
  · exact absurd h (by decide)
  exact absurd h (by decide)

theorem dispatch_eq_space {cc : CharClass} {c : Char} {n : Option Char}
    (h : dispatch cc c n = dSpace) : isSpace c = true := by
  unfold dispatch at h
  split at h
  · exact absurd h (by decide)
  split at h
  · exact absurd h (by decide)
  split at h
  · exact absurd h (by decide)
  split at h
  · exact absurd h (by decide)
  split at h
  · exact absurd h (by decide)
  split at h
  · exact absurd h (by decide)
  split at h
  · exact absurd h (by decide)
  split at h
  · next hc => exact hc
  split at h
  · exact absurd h (by decide)
  split at h
  · exact absurd h (by decide)
  exact absurd h (by decide)

theorem dispatch_quoteChar (cc : CharClass) (n : Option Char) :
    dispatch cc quoteChar n = dQuote := by
  unfold dispatch
  rw [if_neg (fun hh => absurd hh.1 (by decide)),
    if_neg (fun hh => absurd hh.1 (by decide)),
    if_neg (fun hh => absurd hh.1 (by decide)),
    if_neg (fun hh => absurd hh.1 (by decide)), if_pos rfl]

theorem dispatch_titleChar (cc : CharClass) (n : Option Char) :
    dispatch cc '=' n = dTitle := by
  unfold dispatch
  rw [if_neg (fun hh => absurd hh.1 (by decide)),
    if_neg (fun hh => absurd hh.1 (by decide)),
    if_neg (fun hh => absurd hh.1 (by decide)),
    if_neg (fun hh => absurd hh.1 (by decide)),
    if_neg (by decide), if_neg (by decide), if_pos rfl]

theorem dispatch_spaceChar (cc : CharClass) {c : Char} (hc : isSpace c = true)
    (n : Option Char) : dispatch cc c n = dSpace := by
  have hc' : c = ' ' ∨ c = '\t' := by
    simpa [isSpace] using hc
  rcases hc' with rfl | rfl <;>
    (unfold dispatch
     rw [if_neg (fun hh => absurd hh.1 (by decide)),
       if_neg (fun hh => absurd hh.1 (by decide)),
       if_neg (fun hh => absurd hh.1 (by decide)),
       if_neg (fun hh => absurd hh.1 (by decide)),
       if_neg (by decide), if_neg (by decide), if_neg (by decide),
       if_pos (by decide)])

theorem dispatch_change_head {cc : CharClass} {c : Char} {n : Option Char}
    {d : Dispatch} (hd : dispatch cc c n = d)
    (h1 : d ≠ dLeftMeta) (h2 : d ≠ dRightMeta) (h3 : d ≠ dLeftTag)
    (h4 : d ≠ dRightTag) :
    ∀ m, m = none ∨ m = n → dispatch cc c m = d := by
  intro m hm
  rcases hm with rfl | rfl
  · have e1 : ¬ (c = '{' ∧ n = some '{') := by
      intro hh
      apply h1
      rw [← hd]
      unfold dispatch
      rw [if_pos hh]
    have e2 : ¬ (c = '}' ∧ n = some '}') := by
      intro hh
      apply h2
      rw [← hd]
      unfold dispatch
      rw [if_neg (fun hk => absurd (hh.1 ▸ hk.1) (by decide)), if_pos hh]
    have e3 : ¬ (c = '[' ∧ n = some '[') := by
      intro hh
      apply h3
      rw [← hd]
      unfold dispatch
      rw [if_neg (fun hk => absurd (hh.1 ▸ hk.1) (by decide)),
        if_neg (fun hk => absurd (hh.1 ▸ hk.1) (by decide)), if_pos hh]
    have e4 : ¬ (c = ']' ∧ n = some ']') := by
      intro hh
      apply h4
      rw [← hd]
      unfold dispatch
      rw [if_neg (fun hk => absurd (hh.1 ▸ hk.1) (by decide)),
        if_neg (fun hk => absurd (hh.1 ▸ hk.1) (by decide)),
        if_neg (fun hk => absurd (hh.1 ▸ hk.1) (by decide)), if_pos hh]
    unfold dispatch at hd ⊢
    rw [if_neg e1, if_neg e2, if_neg e3, if_neg e4] at hd
    rw [if_neg (fun hh => Option.noConfusion hh.2),
      if_neg (fun hh => Option.noConfusion hh.2),
      if_neg (fun hh => Option.noConfusion hh.2),
      if_neg (fun hh => Option.noConfusion hh.2)]
    exact hd
  · exact hd

theorem dispatch_xmlChar (cc : CharClass) (n : Option Char) :
    dispatch cc '<' n = dXML := by
  unfold dispatch
  rw [if_neg (fun hh => absurd hh.1 (by decide)),
    if_neg (fun hh => absurd hh.1 (by decide)),
    if_neg (fun hh => absurd hh.1 (by decide)),
    if_neg (fun hh => absurd hh.1 (by decide)),
    if_neg (by decide), if_pos rfl]

/-- Structure of every completed run: a body of ordinary tokens followed by
exactly one terminal item, which is the `itemEOF` item (no `itemError` and
no `itemNumber` item is ever produced). -/
theorem lexA_shape (xr : XmlReader) (cc : CharClass) :
    ∀ f p r toks, lexA xr cc f p r = some toks →
      ∃ body v, toks = body ++ [⟨itemEOF, v⟩] ∧
        ∀ u ∈ body, u.typ ≠ itemEOF ∧ u.typ ≠ itemError ∧ u.typ ≠ itemNumber := by
  intro f
  induction f with
  | zero => intro p r toks h; simp [lexA] at h
  | succ f ih =>
    intro p r toks h
    rw [lexA_succ] at h
    cases r with
    | nil =>
      simp only [lexBody] at h
      obtain rfl := Option.some.inj h
      exact ⟨[], p, rfl, by simp⟩
    | cons c rs =>
      simp only [lexBody] at h
      have hcons : ∀ (i : Item) (X : List Char),
          i.typ ≠ itemEOF → i.typ ≠ itemError → i.typ ≠ itemNumber →
          emitC i (lexA xr cc f [] X) = some toks →
          ∃ body v, toks = body ++ [⟨itemEOF, v⟩] ∧
            ∀ u ∈ body, u.typ ≠ itemEOF ∧ u.typ ≠ itemError ∧
              u.typ ≠ itemNumber := by
        intro i X h1 h2 h3 hh
        rcases emitC_eq_some.mp hh with ⟨ts, hts, rfl⟩
        obtain ⟨body, v, rfl, hb⟩ := ih [] X ts hts
        refine ⟨i :: body, v, rfl, ?_⟩
        intro u hu
        rcases List.mem_cons.mp hu with rfl | hu
        · exact ⟨h1, h2, h3⟩
        · exact hb u hu
      cases hdp : dispatch cc c rs.head? <;> rw [hdp] at h <;> dsimp only at h
      case dLeftMeta => exact hcons _ _ (by simp) (by simp) (by simp) h
      case dRightMeta => exact hcons _ _ (by simp) (by simp) (by simp) h
      case dLeftTag => exact hcons _ _ (by simp) (by simp) (by simp) h
      case dRightTag => exact hcons _ _ (by simp) (by simp) (by simp) h
      case dQuote => exact hcons _ _ (by simp) (by simp) (by simp) h
      case dXML =>
        cases hx : xr.rawToken (c :: rs) <;> rw [hx] at h <;> dsimp only at h
        case none => exact absurd h (by simp)
        case some m => exact hcons _ _ (by simp) (by simp) (by simp) h
      case dTitle => exact hcons _ _ (by simp) (by simp) (by simp) h
      case dSpace => exact hcons _ _ (by simp) (by simp) (by simp) h
      case dMark => exact hcons _ _ (by simp) (by simp) (by simp) h
      case dWord => exact hcons _ _ (by simp) (by simp) (by simp) h
      case dDrop => exact ih _ _ _ h

/-- Every completed run's item texts concatenate to exactly the pending
text plus the unscanned input: `ignore` is never called, so no characters
are lost or duplicated. -/
theorem lexA_join (xr : XmlReader) (cc : CharClass) :
    ∀ f p r toks, lexA xr cc f p r = some toks → joinVals toks = p ++ r := by
  intro f
  induction f with
  | zero => intro p r toks h; simp [lexA] at h
  | succ f ih =>
    intro p r toks h
    rw [lexA_succ] at h
    cases r with
    | nil =>
      simp only [lexBody] at h
      obtain rfl := Option.some.inj h
      simp [joinVals]
    | cons c rs =>
      simp only [lexBody] at h
      have hcons : ∀ (ty : ItemType) (w X : List Char),
          emitC ⟨ty, p ++ w⟩ (lexA xr cc f [] X) = some toks →
          w ++ X = c :: rs → joinVals toks = p ++ c :: rs := by
        intro ty w X hh hwX
        rcases emitC_eq_some.mp hh with ⟨ts, hts, rfl⟩
        have hj := ih [] X ts hts
        simp only [List.nil_append] at hj
        simp only [joinVals, List.map_cons, List.flatten_cons] at hj ⊢
        rw [hj, List.append_assoc, hwX]
      cases hdp : dispatch cc c rs.head? <;> rw [hdp] at h <;> dsimp only at h
      case dLeftMeta =>
        obtain ⟨rfl, hh⟩ := dispatch_eq_leftMeta hdp
        rcases rs with _ | ⟨d, t⟩
        · exact absurd hh (by simp)
        · obtain rfl : d = '{' := by simpa using hh
          exact hcons _ _ _ h rfl
      case dRightMeta =>
        obtain ⟨rfl, hh⟩ := dispatch_eq_rightMeta hdp
        rcases rs with _ | ⟨d, t⟩
        · exact absurd hh (by simp)
        · obtain rfl : d = '}' := by simpa using hh
          exact hcons _ _ _ h rfl
      case dLeftTag =>
        obtain ⟨rfl, hh⟩ := dispatch_eq_leftTag hdp
        rcases rs with _ | ⟨d, t⟩
        · exact absurd hh (by simp)
        · obtain rfl : d = '[' := by simpa using hh
          exact hcons _ _ _ h rfl
      case dRightTag =>
        obtain ⟨rfl, hh⟩ := dispatch_eq_rightTag hdp
        rcases rs with _ | ⟨d, t⟩
        · exact absurd hh (by simp)
        · obtain rfl : d = ']' := by simpa using hh
          exact hcons _ _ _ h rfl
      case dQuote =>
        refine hcons _ _ _ h ?_
        simp [List.takeWhile_append_dropWhile]
      case dXML =>
        cases hx : xr.rawToken (c :: rs) <;> rw [hx] at h <;> dsimp only at h
        case none => exact absurd h (by simp)
        case some m =>
          refine hcons _ _ _ h ?_
          exact List.take_append_drop m (c :: rs)
      case dTitle =>
        refine hcons _ _ _ h ?_
        simp [List.takeWhile_append_dropWhile]
      case dSpace =>
        refine hcons _ _ _ h ?_
        simp [List.takeWhile_append_dropWhile]
      case dMark => exact hcons _ _ _ h rfl
      case dWord =>
        refine hcons _ _ _ h ?_
        simp [wordRun_append]
      case dDrop =>
        have hj := ih _ _ _ h
        rw [hj, List.append_assoc]
        rfl

/-- The first item of a completed run's output carries the pending text as
a prefix of its text. -/
theorem lexA_head_val (xr : XmlReader) (cc : CharClass) :
    ∀ f p r t ts, lexA xr cc f p r = some (t :: ts) →
      ∃ u, t.val = p ++ u := by
  intro f
  induction f with
  | zero => intro p r t ts h; simp [lexA] at h
  | succ f ih =>
    intro p r t ts h
    rw [lexA_succ] at h
    cases r with
    | nil =>
      simp only [lexBody] at h
      obtain ⟨rfl, _⟩ : (⟨itemEOF, p⟩ : Item) = t ∧ [] = ts := by
        simpa using Option.some.inj h
      exact ⟨[], by simp⟩
    | cons c rs =>
      simp only [lexBody] at h
      have hcons : ∀ (ty : ItemType) (w : List Char) (X : List Char),
          emitC ⟨ty, p ++ w⟩ (lexA xr cc f [] X) = some (t :: ts) →
          ∃ u, t.val = p ++ u := by
        intro ty w X hh
        rcases emitC_eq_some.mp hh with ⟨ts2, hts, heq⟩
        obtain ⟨rfl, rfl⟩ : (⟨ty, p ++ w⟩ : Item) = t ∧ ts2 = ts := by
          constructor
          · exact (List.cons.injEq _ _ _ _ ▸ heq).1.symm
          · exact ((List.cons.injEq _ _ _ _ ▸ heq).2).symm
        exact ⟨w, rfl⟩
      cases hdp : dispatch cc c rs.head? <;> rw [hdp] at h <;> dsimp only at h
      case dLeftMeta => exact hcons _ _ _ h
      case dRightMeta => exact hcons _ _ _ h
      case dLeftTag => exact hcons _ _ _ h
      case dRightTag => exact hcons _ _ _ h
      case dQuote => exact hcons _ _ _ h
      case dXML =>
        cases hx : xr.rawToken (c :: rs) <;> rw [hx] at h <;> dsimp only at h
        case none => exact absurd h (by simp)
        case some m => exact hcons _ _ _ h
      case dTitle => exact hcons _ _ _ h
      case dSpace => exact hcons _ _ _ h
      case dMark => exact hcons _ _ _ h
      case dWord => exact hcons _ _ _ h
      case dDrop =>
        obtain ⟨u, hu⟩ := ih _ _ _ _ h
        exact ⟨[c] ++ u, by rw [hu, List.append_assoc]⟩

theorem lexA_one (xr : XmlReader) (cc : CharClass) (f : Nat) (q : List Char) :
    lexA xr cc (f + 1) q [] = some [⟨itemEOF, q⟩] := by
  rw [lexA_succ]
  rfl

theorem pendingOK_mono (cc : CharClass) :
    ∀ (p : List Char) (c : Char) (X Y : List Char),
      pendingOK cc p (c :: X) → pendingOK cc p (c :: Y) := by
  intro p
  induction p with
  | nil => intro c X Y _; trivial
  | cons d p' ih =>
    intro c X Y h
    obtain ⟨h1, h2⟩ := h
    refine ⟨?_, ih c X Y h2⟩
    have hh : (p' ++ c :: X).head? = (p' ++ c :: Y).head? := by
      cases p' <;> simp
    rw [← hh]
    exact h1

theorem pendingOK_extend (cc : CharClass) :
    ∀ (p : List Char) (c : Char) (rs : List Char),
      pendingOK cc p (c :: rs) → dispatch cc c rs.head? = dDrop →
      pendingOK cc (p ++ [c]) rs := by
  intro p
  induction p with
  | nil => intro c rs _ hd; exact ⟨by simpa using hd, trivial⟩
  | cons d p' ih =>
    intro c rs h hd
    obtain ⟨h1, h2⟩ := h
    refine ⟨?_, ih c rs h2 hd⟩
    show dispatch cc d ((p' ++ [c]) ++ rs).head? = dDrop
    rw [List.append_assoc]
    exact h1

/-- Scanning through a pending buffer of dropped characters: the lexer
steps over each of them without emitting, moving them from the unscanned
input into the pending text. -/
theorem lexA_pending_steps (xr : XmlReader) (cc : CharClass) :
    ∀ (p : List Char) (f : Nat) (q X : List Char), pendingOK cc p X →
      lexA xr cc (p.length + f) q (p ++ X) = lexA xr cc f (q ++ p) X := by
  intro p
  induction p with
  | nil => intro f q X _; simp
  | cons d p' ih =>
    intro f q X h
    obtain ⟨h1, h2⟩ := h
    have hstep : lexA xr cc (p'.length + f + 1) q (d :: (p' ++ X)) =
        lexA xr cc (p'.length + f) (q ++ [d]) (p' ++ X) := by
      rw [lexA_succ]
      simp only [lexBody]
      rw [h1]
    have hfuel : (d :: p').length + f = p'.length + f + 1 := by
      simp only [List.length_cons]
      omega
    calc lexA xr cc ((d :: p').length + f) q ((d :: p') ++ X)
        = lexA xr cc (p'.length + f + 1) q (d :: (p' ++ X)) := by rw [hfuel]; rfl
      _ = lexA xr cc (p'.length + f) (q ++ [d]) (p' ++ X) := hstep
      _ = lexA xr cc f ((q ++ [d]) ++ p') X := ih f (q ++ [d]) X h2
      _ = lexA xr cc f (q ++ (d :: p')) X := by rw [List.append_assoc]; rfl

/-- Re-tokenizing the text of an emitted `Quote` item in isolation yields
that item again, followed by the terminal. -/
theorem retok_quote (xr : XmlReader) (cc : CharClass) (p : List Char)
    (c : Char) (rs : List Char) (hp : pendingOK cc p (c :: rs))
    (hdp : dispatch cc c rs.head? = dQuote) :
    lexLine xr cc (p ++ c :: rs.takeWhile (· == quoteChar)) =
      some [⟨itemQuote, p ++ c :: rs.takeWhile (· == quoteChar)⟩,
        ⟨itemEOF, []⟩] := by
  obtain rfl : c = quoteChar := dispatch_eq_quote hdp
  unfold lexLine
  have hlen :
      (p ++ quoteChar :: rs.takeWhile (· == quoteChar)).length + 1 =
      p.length + ((rs.takeWhile (· == quoteChar)).length + 1 + 1) := by
    simp only [List.length_append, List.length_cons]
    omega
  rw [hlen,
    lexA_pending_steps xr cc p ((rs.takeWhile (· == quoteChar)).length + 1 + 1)
      [] (quoteChar :: rs.takeWhile (· == quoteChar))
      (pendingOK_mono cc p quoteChar rs (rs.takeWhile (· == quoteChar)) hp)]
  simp only [List.nil_append]
  rw [lexA_succ]
  simp only [lexBody]
  rw [dispatch_quoteChar cc (rs.takeWhile (· == quoteChar)).head?]
  dsimp only
  rw [takeWhile_self, dropWhile_takeWhile, lexA_one]
  rfl

/-- Re-tokenizing the text of an emitted `Title` item in isolation yields
that item again, followed by the terminal. -/
theorem retok_title (xr : XmlReader) (cc : CharClass) (p : List Char)
    (c : Char) (rs : List Char) (hp : pendingOK cc p (c :: rs))
    (hdp : dispatch cc c rs.head? = dTitle) :
    lexLine xr cc (p ++ c :: rs.takeWhile (· == '=')) =
      some [⟨itemTitle, p ++ c :: rs.takeWhile (· == '=')⟩, ⟨itemEOF, []⟩] := by
  obtain rfl : c = '=' := dispatch_eq_title hdp
  unfold lexLine
  have hlen :
      (p ++ '=' :: rs.takeWhile (· == '=')).length + 1 =
      p.length + ((rs.takeWhile (· == '=')).length + 1 + 1) := by
    simp only [List.length_append, List.length_cons]
    omega
  rw [hlen,
    lexA_pending_steps xr cc p ((rs.takeWhile (· == '=')).length + 1 + 1)
      [] ('=' :: rs.takeWhile (· == '='))
      (pendingOK_mono cc p '=' rs (rs.takeWhile (· == '=')) hp)]
  simp only [List.nil_append]
  rw [lexA_succ]
  simp only [lexBody]
  rw [dispatch_titleChar cc (rs.takeWhile (· == '=')).head?]
  dsimp only
  rw [takeWhile_self, dropWhile_takeWhile, lexA_one]
  rfl

/-- Re-tokenizing the text of an emitted `Space` item in isolation yields
that item again, followed by the terminal. -/
theorem retok_space (xr : XmlReader) (cc : CharClass) (p : List Char)
    (c : Char) (rs : List Char) (hp : pendingOK cc p (c :: rs))
    (hdp : dispatch cc c rs.head? = dSpace) :
    lexLine xr cc (p ++ c :: rs.takeWhile isSpace) =
      some [⟨itemSpace, p ++ c :: rs.takeWhile isSpace⟩, ⟨itemEOF, []⟩] := by
  have hc : isSpace c = true := dispatch_eq_space hdp
  unfold lexLine
  have hlen :
      (p ++ c :: rs.takeWhile isSpace).length + 1 =
      p.length + ((rs.takeWhile isSpace).length + 1 + 1) := by
    simp only [List.length_append, List.length_cons]
    omega
  rw [hlen,
    lexA_pending_steps xr cc p ((rs.takeWhile isSpace).length + 1 + 1)
      [] (c :: rs.takeWhile isSpace)
      (pendingOK_mono cc p c rs (rs.takeWhile isSpace) hp)]
  simp only [List.nil_append]
  rw [lexA_succ]
  simp only [lexBody]
  rw [dispatch_spaceChar cc hc (rs.takeWhile isSpace).head?]
  dsimp only
  rw [takeWhile_self, dropWhile_takeWhile, lexA_one]
  rfl

/-- Re-tokenizing the text of an emitted `Mark` item in isolation yields
that item again, followed by the terminal. -/
theorem retok_mark (xr : XmlReader) (cc : CharClass) (p : List Char)
    (c : Char) (rs : List Char) (hp : pendingOK cc p (c :: rs))
    (hdp : dispatch cc c rs.head? = dMark) :
    lexLine xr cc (p ++ [c]) =
      some [⟨itemMark, p ++ [c]⟩, ⟨itemEOF, []⟩] := by
  have hd0 : dispatch cc c (none : Option Char) = dMark :=
    dispatch_change_head hdp (by decide) (by decide) (by decide) (by decide)
      none (Or.inl rfl)
  unfold lexLine
  have hlen : (p ++ [c]).length + 1 = p.length + (1 + 1) := by
    have h0 : (p ++ [c]).length = p.length + 1 := by simp
    omega
  rw [hlen,
    lexA_pending_steps xr cc p (1 + 1) [] [c]
      (pendingOK_mono cc p c rs [] hp)]
  simp only [List.nil_append]
  rw [lexA_succ]
  simp only [lexBody]
  rw [show (([] : List Char).head?) = (none : Option Char) from rfl, hd0]
  dsimp only
  rw [lexA_one]
  rfl

/-- Re-tokenizing the text of an emitted `Word` item in isolation yields
that item again, followed by the terminal. -/
theorem retok_word (xr : XmlReader) (cc : CharClass) (p : List Char)
    (c : Char) (rs : List Char) (hp : pendingOK cc p (c :: rs))
    (hdp : dispatch cc c rs.head? = dWord) :
    lexLine xr cc (p ++ c :: (wordRun cc rs).1) =
      some [⟨itemWord, p ++ c :: (wordRun cc rs).1⟩, ⟨itemEOF, []⟩] := by
  have hd2 : dispatch cc c (wordRun cc rs).1.head? = dWord :=
    dispatch_change_head hdp (by decide) (by decide) (by decide) (by decide)
      (wordRun cc rs).1.head? (wordRun_fst_head cc rs)
  unfold lexLine
  have hlen :
      (p ++ c :: (wordRun cc rs).1).length + 1 =
      p.length + ((wordRun cc rs).1.length + 1 + 1) := by
    simp only [List.length_append, List.length_cons]
    omega
  rw [hlen,
    lexA_pending_steps xr cc p ((wordRun cc rs).1.length + 1 + 1)
      [] (c :: (wordRun cc rs).1)
      (pendingOK_mono cc p c rs (wordRun cc rs).1 hp)]
  simp only [List.nil_append]
  rw [lexA_succ]
  simp only [lexBody]
  rw [hd2]
  dsimp only
  rw [wordRun_self cc rs]
  dsimp only
  rw [lexA_one]
  rfl

/-- Master invariant: in any completed run from a well-formed state, every
emitted `Word`, `Mark`, `Space`, `Quote` or `Title` item re-tokenizes, in
isolation, to itself followed by the terminal. -/
theorem lexA_retok (xr : XmlReader) (cc : CharClass) :
    ∀ f p r toks, lexA xr cc f p r = some toks → pendingOK cc p r →
      ∀ t ∈ toks,
        (t.typ = itemWord ∨ t.typ = itemMark ∨ t.typ = itemSpace ∨
          t.typ = itemQuote ∨ t.typ = itemTitle) →
        lexLine xr cc t.val = some [⟨t.typ, t.val⟩, ⟨itemEOF, []⟩] := by
  intro f
  induction f with
  | zero => intro p r toks h; simp [lexA] at h
  | succ f ih =>
    intro p r toks h hp
    rw [lexA_succ] at h
    cases r with
    | nil =>
      simp only [lexBody] at h
      obtain rfl := Option.some.inj h
      intro t ht hk
      obtain rfl : t = ⟨itemEOF, p⟩ := by simpa using ht
      rcases hk with hk | hk | hk | hk | hk <;> simp at hk
    | cons c rs =>
      simp only [lexBody] at h
      cases hdp : dispatch cc c rs.head? <;> rw [hdp] at h <;> dsimp only at h
      case dLeftMeta =>
        rcases emitC_eq_some.mp h with ⟨ts, hts, rfl⟩
        intro t ht hk
        rcases List.mem_cons.mp ht with rfl | ht
        · rcases hk with hk | hk | hk | hk | hk <;> simp at hk
        · exact ih [] _ ts hts trivial t ht hk
      case dRightMeta =>
        rcases emitC_eq_some.mp h with ⟨ts, hts, rfl⟩
        intro t ht hk
        rcases List.mem_cons.mp ht with rfl | ht
        · rcases hk with hk | hk | hk | hk | hk <;> simp at hk
        · exact ih [] _ ts hts trivial t ht hk
      case dLeftTag =>
        rcases emitC_eq_some.mp h with ⟨ts, hts, rfl⟩
        intro t ht hk
        rcases List.mem_cons.mp ht with rfl | ht
        · rcases hk with hk | hk | hk | hk | hk <;> simp at hk
        · exact ih [] _ ts hts trivial t ht hk
      case dRightTag =>
        rcases emitC_eq_some.mp h with ⟨ts, hts, rfl⟩
        intro t ht hk
        rcases List.mem_cons.mp ht with rfl | ht
        · rcases hk with hk | hk | hk | hk | hk <;> simp at hk
        · exact ih [] _ ts hts trivial t ht hk
      case dQuote =>
        rcases emitC_eq_some.mp h with ⟨ts, hts, rfl⟩
        intro t ht hk
        rcases List.mem_cons.mp ht with rfl | ht
        · exact retok_quote xr cc p c rs hp hdp
        · exact ih [] _ ts hts trivial t ht hk
      case dXML =>
        cases hx : xr.rawToken (c :: rs) <;> rw [hx] at h <;> dsimp only at h
        case none => exact absurd h (by simp)
        case some m =>
          rcases emitC_eq_some.mp h with ⟨ts, hts, rfl⟩
          intro t ht hk
          rcases List.mem_cons.mp ht with rfl | ht
          · rcases hk with hk | hk | hk | hk | hk <;> simp at hk
          · exact ih [] _ ts hts trivial t ht hk
      case dTitle =>
        rcases emitC_eq_some.mp h with ⟨ts, hts, rfl⟩
        intro t ht hk
        rcases List.mem_cons.mp ht with rfl | ht
        · exact retok_title xr cc p c rs hp hdp
        · exact ih [] _ ts hts trivial t ht hk
      case dSpace =>
        rcases emitC_eq_some.mp h with ⟨ts, hts, rfl⟩
        intro t ht hk
        rcases List.mem_cons.mp ht with rfl | ht
        · exact retok_space xr cc p c rs hp hdp
        · exact ih [] _ ts hts trivial t ht hk
      case dMark =>
        rcases emitC_eq_some.mp h with ⟨ts, hts, rfl⟩
        intro t ht hk
        rcases List.mem_cons.mp ht with rfl | ht
        · exact retok_mark xr cc p c rs hp hdp
        · exact ih [] _ ts hts trivial t ht hk
      case dWord =>
        rcases emitC_eq_some.mp h with ⟨ts, hts, rfl⟩
        intro t ht hk
        rcases List.mem_cons.mp ht with rfl | ht
        · exact retok_word xr cc p c rs hp hdp
        · exact ih [] _ ts hts trivial t ht hk
      case dDrop =>
        intro t ht hk
        exact ih (p ++ [c]) rs toks h
          (pendingOK_extend cc p c rs hp hdp) t ht hk

theorem metaBal_nil : metaBal [] = 0 := by
  simp [metaBal]

theorem metaBal_cons (s : Item) (l : List Item) :
    metaBal (s :: l) = metaBal [s] + metaBal l := by
  simp only [metaBal, List.countP_cons, List.countP_nil, Nat.zero_add]
  push_cast
  ring

theorem parseBracket_cons (left right : ItemType) (d : Int) (s : Item)
    (rest : List Item) :
    parseBracket left right d (s :: rest) =
      if s.typ = itemEOF then rest
      else
        if (if s.typ = right then (if s.typ = left then d + 1 else d) - 1
            else (if s.typ = left then d + 1 else d)) = 0 then rest
        else parseBracket left right
          (if s.typ = right then (if s.typ = left then d + 1 else d) - 1
            else (if s.typ = left then d + 1 else d)) rest := rfl

/-- `parseBracket` on a properly nested span: starting from any positive
depth whose balance closes exactly at the end of the span and never earlier,
it consumes exactly the span and leaves the rest of the stream. -/
theorem parseBracket_span :
    ∀ (span : List Item) (d : Int) (rest : List Item),
      0 < d →
      (∀ s ∈ span, s.typ ≠ itemEOF) →
      (∀ i, i < span.length → 0 < d + metaBal (span.take i)) →
      d + metaBal span = 0 →
      parseBracket itemLeftMeta itemRightMeta d (span ++ rest) = rest := by
  intro span
  induction span with
  | nil =>
    intro d rest hd _ _ hend
    rw [metaBal_nil] at hend
    omega
  | cons s tail ih =>
    intro d rest hd hno hpre hend
    have hsEOF : s.typ ≠ itemEOF := hno s (by simp)
    have hd2 : (if s.typ = itemRightMeta then
        (if s.typ = itemLeftMeta then d + 1 else d) - 1
        else (if s.typ = itemLeftMeta then d + 1 else d)) =
        d + metaBal [s] := by
      by_cases hL : s.typ = itemLeftMeta <;> by_cases hR : s.typ = itemRightMeta
      · rw [hL] at hR
        exact absurd hR (by decide)
      · have h1 : metaBal [s] = 1 := by
          simp [metaBal, List.countP_cons, List.countP_nil, hL, hR]
        rw [if_neg hR, if_pos hL, h1]
      · have h1 : metaBal [s] = -1 := by
          simp [metaBal, List.countP_cons, List.countP_nil, hL, hR]
        rw [if_pos hR, if_neg hL, h1]
        omega
      · have h1 : metaBal [s] = 0 := by
          simp [metaBal, List.countP_cons, List.countP_nil, hL, hR]
        rw [if_neg hR, if_neg hL, h1]
        omega
    rw [List.cons_append, parseBracket_cons, if_neg hsEOF, hd2]
    by_cases hz : d + metaBal [s] = 0
    · rw [if_pos hz]
      rcases tail with _ | ⟨t, tail2⟩
      · simp
      · exfalso
        have h1 := hpre 1 (by simp)
        simp only [List.take_succ_cons, List.take_zero] at h1
        omega
    · rw [if_neg hz]
      apply ih (d + metaBal [s]) rest
      · rcases tail with _ | ⟨t, tail2⟩
        · exact absurd hend hz
        · have h1 := hpre 1 (by simp)
          simp only [List.take_succ_cons, List.take_zero] at h1
          exact h1
      · intro u hu
        exact hno u (by simp [hu])
      · intro i hi
        have h2 := hpre (i + 1) (by simp only [List.length_cons]; omega)
        rw [List.take_succ_cons, metaBal_cons] at h2
        omega
      · rw [metaBal_cons] at hend
        omega

/-- Claim C1: for every input line, the token sequence of a completed run
terminates in exactly one `EndOfInput` item or exactly one `Error` item —
never both and never neither: the terminal item is the last item emitted,
no other emitted item is `EndOfInput` or `Error`, and whenever the XML
collaborator never fails, a terminal is always emitted (the run always
completes). -/
theorem lexLine_terminates_in_unique_terminal (xr : XmlReader)
    (cc : CharClass) (input : List Char) :
    (∀ toks, lexLine xr cc input = some toks →
      ∃ body t, toks = body ++ [t] ∧
        (t.typ = itemEOF ∨ t.typ = itemError) ∧
        ∀ u ∈ body, u.typ ≠ itemEOF ∧ u.typ ≠ itemError) ∧
    ((∀ c s, xr.rawToken (c :: s) ≠ none) →
      ∃ toks, lexLine xr cc input = some toks) := by
  constructor
  · intro toks h
    obtain ⟨body, v, rfl, hb⟩ := lexA_shape xr cc _ _ _ _ h
    exact ⟨body, ⟨itemEOF, v⟩, rfl, Or.inl rfl,
      fun u hu => ⟨(hb u hu).1, (hb u hu).2.1⟩⟩
  · intro hxr
    exact lexA_total xr cc hxr _ _ _ (Nat.lt_succ_self _)

theorem lexLine_terminates_in_unique_terminal_witness :
    (∃ body t,
      ([⟨itemWord, ['h', 'i']⟩, ⟨itemEOF, []⟩] : List Item) = body ++ [t] ∧
      (t.typ = itemEOF ∨ t.typ = itemError) ∧
      ∀ u ∈ body, u.typ ≠ itemEOF ∧ u.typ ≠ itemError) ∧
    (∃ toks, lexLine oneXml asciiClass ['h', 'i'] = some toks) :=
  ⟨(lexLine_terminates_in_unique_terminal noXml asciiClass ['h', 'i']).1
      [⟨itemWord, ['h', 'i']⟩, ⟨itemEOF, []⟩] rfl,
    (lexLine_terminates_in_unique_terminal oneXml asciiClass ['h', 'i']).2
      (fun c s => by simp [oneXml])⟩

/-- Claim C2 counterexample: on the line `\x01a` the control character
U+0001 matches none of the dispatch rules (its dispatch outcome is the
fall-through `dDrop`), yet it appears in the text of the emitted `Word`
token, contradicting "it appears in the text field of no emitted token". -/
theorem dropped_char_appears_in_next_token_text :
    dispatch asciiClass (Char.ofNat 1) (some 'a') = dDrop ∧
    lexLine noXml asciiClass [Char.ofNat 1, 'a'] =
      some [⟨itemWord, [Char.ofNat 1, 'a']⟩, ⟨itemEOF, []⟩] ∧
    Char.ofNat 1 ∈ (⟨itemWord, [Char.ofNat 1, 'a']⟩ : Item).val :=
  ⟨by decide, rfl, by decide⟩

/-- Claim C2 amended: a character that matches none of dispatch rules 1-11
produces no token at that step and scanning continues, but the character is
not removed from the pending text: it joins the pending buffer, and the
next emitted item's text begins with the pending buffer including that
character (so the dropped character does appear in the text of the next
emitted token — the terminal `EndOfInput` item if no other follows). -/
theorem dropped_char_kept_pending (xr : XmlReader) (cc : CharClass)
    (f : Nat) (p : List Char) (c : Char) (rs : List Char)
    (h : dispatch cc c rs.head? = dDrop) :
    lexA xr cc (f + 1) p (c :: rs) = lexA xr cc f (p ++ [c]) rs ∧
    (∀ t ts, lexA xr cc f (p ++ [c]) rs = some (t :: ts) →
      ∃ u, t.val = (p ++ [c]) ++ u) := by
  constructor
  · rw [lexA_succ]
    simp only [lexBody]
    rw [h]
  · intro t ts hh
    exact lexA_head_val xr cc f (p ++ [c]) rs t ts hh

theorem dropped_char_kept_pending_witness :
    lexA noXml asciiClass 3 [] [Char.ofNat 1, 'a'] =
      lexA noXml asciiClass 2 [Char.ofNat 1] ['a'] ∧
    ∃ u, (⟨itemWord, [Char.ofNat 1, 'a']⟩ : Item).val = [Char.ofNat 1] ++ u :=
  ⟨(dropped_char_kept_pending noXml asciiClass 2 [] (Char.ofNat 1) ['a']
      (by decide)).1,
    (dropped_char_kept_pending noXml asciiClass 2 [] (Char.ofNat 1) ['a']
      (by decide)).2 ⟨itemWord, [Char.ofNat 1, 'a']⟩ [⟨itemEOF, []⟩] rfl⟩

/-- Claim C3: the bracket matcher, entered with depth 1, stops immediately
when an `EndOfInput` item arrives, and on any properly nested span —
nesting balance strictly positive on every proper prefix and zero exactly
at the end — it consumes precisely the span (its matching close included)
and leaves the subsequent items unconsumed. -/
theorem parseBracket_consumes_nested_span :
    (∀ (d : Int) (s : Item) (rest : List Item), s.typ = itemEOF →
      parseBracket itemLeftMeta itemRightMeta d (s :: rest) = rest) ∧
    (∀ (span rest : List Item),
      (∀ s ∈ span, s.typ ≠ itemEOF) →
      (∀ i, i < span.length → 0 < 1 + metaBal (span.take i)) →
      1 + metaBal span = 0 →
      parseBracket itemLeftMeta itemRightMeta 1 (span ++ rest) = rest) := by
  constructor
  · intro d s rest hs
    rw [parseBracket_cons, if_pos hs]
  · intro span rest hno hpre hend
    exact parseBracket_span span 1 rest (by omega) hno hpre hend

theorem parseBracket_consumes_nested_span_witness :
    parseBracket itemLeftMeta itemRightMeta 1
      ([⟨itemLeftMeta, ['{', '{']⟩, ⟨itemRightMeta, ['}', '}']⟩,
        ⟨itemRightMeta, ['}', '}']⟩] ++
        [⟨itemSpace, [' ']⟩, ⟨itemEOF, []⟩]) =
      [⟨itemSpace, [' ']⟩, ⟨itemEOF, []⟩] ∧
    parseBracket itemLeftMeta itemRightMeta 7
      (⟨itemEOF, []⟩ :: [⟨itemWord, ['z']⟩]) = [⟨itemWord, ['z']⟩] :=
  ⟨parseBracket_consumes_nested_span.2
      [⟨itemLeftMeta, ['{', '{']⟩, ⟨itemRightMeta, ['}', '}']⟩,
        ⟨itemRightMeta, ['}', '}']⟩]
      [⟨itemSpace, [' ']⟩, ⟨itemEOF, []⟩]
      (by decide) (by decide) (by decide),
    parseBracket_consumes_nested_span.1 7 ⟨itemEOF, []⟩
      [⟨itemWord, ['z']⟩] rfl⟩

/-- Claim C4: the link extractor accumulates items, resets its buffer to
empty every time it sees a `Mark` item with text `|`, stops at
`itemRightTag` (returning the buffer with the closer appended) or at
`itemEOF` (an unterminated link returns what was accumulated); for the
lexed line `[[Target|Display text]]` the driver's call on the stream after
the `LeftTag` renders to exactly `Display text`, and for `[[Target]]` it
renders to `Target`. -/
theorem parseLink_keeps_display_text :
    (∀ (text : List Item) (s : Item) (rest : List Item),
      s.typ = itemMark → s.val = ['|'] →
      parseLinkAux text (s :: rest) = parseLinkAux [] rest) ∧
    (∀ (text : List Item) (s : Item) (rest : List Item),
      s.typ = itemRightTag →
      parseLinkAux text (s :: rest) = (text ++ [s], rest)) ∧
    (∀ (text : List Item) (s : Item) (rest : List Item),
      s.typ = itemEOF →
      parseLinkAux text (s :: rest) = (text, rest)) ∧
    (∀ body, lexLine noXml asciiClass "[[Target|Display text]]".toList =
        some (⟨itemLeftTag, ['[', '[']⟩ :: body) →
      render (parseLink body).1 = "Display text".toList) ∧
    (∀ body, lexLine noXml asciiClass "[[Target]]".toList =
        some (⟨itemLeftTag, ['[', '[']⟩ :: body) →
      render (parseLink body).1 = "Target".toList) := by
  refine ⟨?_, ?_, ?_, ?_, ?_⟩
  · intro text s rest h1 h2
    simp [parseLinkAux, h1, h2]
  · intro text s rest h1
    simp [parseLinkAux, h1]
  · intro text s rest h1
    simp [parseLinkAux, h1]
  · intro body hb
    have hfull : lexLine noXml asciiClass "[[Target|Display text]]".toList =
        some (⟨itemLeftTag, ['[', '[']⟩ ::
          [⟨itemWord, "Target".toList⟩, ⟨itemMark, ['|']⟩,
            ⟨itemWord, "Display".toList⟩, ⟨itemSpace, [' ']⟩,
            ⟨itemWord, "text".toList⟩, ⟨itemRightTag, [']', ']']⟩,
            ⟨itemEOF, []⟩]) := rfl
    obtain rfl : body =
        [⟨itemWord, "Target".toList⟩, ⟨itemMark, ['|']⟩,
          ⟨itemWord, "Display".toList⟩, ⟨itemSpace, [' ']⟩,
          ⟨itemWord, "text".toList⟩, ⟨itemRightTag, [']', ']']⟩,
          ⟨itemEOF, []⟩] := by
      have h2 := hfull.symm.trans hb
      simpa using h2.symm
    rfl
  · intro body hb
    have hfull : lexLine noXml asciiClass "[[Target]]".toList =
        some (⟨itemLeftTag, ['[', '[']⟩ ::
          [⟨itemWord, "Target".toList⟩, ⟨itemRightTag, [']', ']']⟩,
            ⟨itemEOF, []⟩]) := rfl
    obtain rfl : body =
        [⟨itemWord, "Target".toList⟩, ⟨itemRightTag, [']', ']']⟩,
          ⟨itemEOF, []⟩] := by
      have h2 := hfull.symm.trans hb
      simpa using h2.symm
    rfl

theorem parseLink_keeps_display_text_witness :
    parseLinkAux [⟨itemWord, ['a']⟩]
      (⟨itemMark, ['|']⟩ :: [⟨itemEOF, []⟩]) =
      parseLinkAux [] [⟨itemEOF, []⟩] ∧
    render (parseLink
      [⟨itemWord, "Target".toList⟩, ⟨itemMark, ['|']⟩,
        ⟨itemWord, "Display".toList⟩, ⟨itemSpace, [' ']⟩,
        ⟨itemWord, "text".toList⟩, ⟨itemRightTag, [']', ']']⟩,
        ⟨itemEOF, []⟩]).1 = "Display text".toList ∧
    render (parseLink
      [⟨itemWord, "Target".toList⟩, ⟨itemRightTag, [']', ']']⟩,
        ⟨itemEOF, []⟩]).1 = "Target".toList :=
  ⟨parseLink_keeps_display_text.1 [⟨itemWord, ['a']⟩] ⟨itemMark, ['|']⟩
      [⟨itemEOF, []⟩] rfl rfl,
    parseLink_keeps_display_text.2.2.2.1 _ rfl,
    parseLink_keeps_display_text.2.2.2.2 _ rfl⟩

/-- Claim C5: the title extractor accumulates every item until the first
subsequent `Title` item of any run length — the `level` parameter it
receives never influences the result, so mismatched heading levels such as
`== Title ===` are accepted — or until `itemEOF`; for the lexed line
`== Heading ==` the driver's call on the stream after the opening `Title`
renders to exactly `" Heading "`. -/
theorem parseTitle_accepts_any_closing_marker :
    (∀ (l1 l2 : Nat) (stream : List Item),
      parseTitle l1 stream = parseTitle l2 stream) ∧
    (∀ (result : List Item) (s : Item) (rest : List Item),
      s.typ = itemTitle →
      parseTitleAux result (s :: rest) = (result ++ [s], rest)) ∧
    (∀ (result : List Item) (s : Item) (rest : List Item),
      s.typ = itemEOF →
      parseTitleAux result (s :: rest) = (result, rest)) ∧
    (∀ body, lexLine noXml asciiClass "== Heading ==".toList =
        some (⟨itemTitle, ['=', '=']⟩ :: body) →
      render (parseTitle 2 body).1 = " Heading ".toList) ∧
    (∀ body, lexLine noXml asciiClass "== Title ===".toList =
        some (⟨itemTitle, ['=', '=']⟩ :: body) →
      render (parseTitle 2 body).1 = " Title ".toList) := by
  refine ⟨?_, ?_, ?_, ?_, ?_⟩
  · intro l1 l2 stream
    rfl
  · intro result s rest h1
    simp [parseTitleAux, h1]
  · intro result s rest h1
    simp [parseTitleAux, h1]
  · intro body hb
    have hfull : lexLine noXml asciiClass "== Heading ==".toList =
        some (⟨itemTitle, ['=', '=']⟩ ::
          [⟨itemSpace, [' ']⟩, ⟨itemWord, "Heading".toList⟩,
            ⟨itemSpace, [' ']⟩, ⟨itemTitle, ['=', '=']⟩,
            ⟨itemEOF, []⟩]) := rfl
    obtain rfl : body =
        [⟨itemSpace, [' ']⟩, ⟨itemWord, "Heading".toList⟩,
          ⟨itemSpace, [' ']⟩, ⟨itemTitle, ['=', '=']⟩, ⟨itemEOF, []⟩] := by
      have h2 := hfull.symm.trans hb
      simpa using h2.symm
    rfl
  · intro body hb
    have hfull : lexLine noXml asciiClass "== Title ===".toList =
        some (⟨itemTitle, ['=', '=']⟩ ::
          [⟨itemSpace, [' ']⟩, ⟨itemWord, "Title".toList⟩,
            ⟨itemSpace, [' ']⟩, ⟨itemTitle, ['=', '=', '=']⟩,
            ⟨itemEOF, []⟩]) := rfl
    obtain rfl : body =
        [⟨itemSpace, [' ']⟩, ⟨itemWord, "Title".toList⟩,
          ⟨itemSpace, [' ']⟩, ⟨itemTitle, ['=', '=', '=']⟩,
          ⟨itemEOF, []⟩] := by
      have h2 := hfull.symm.trans hb
      simpa using h2.symm
    rfl

theorem parseTitle_accepts_any_closing_marker_witness :
    parseTitle 2 [⟨itemWord, ['a']⟩, ⟨itemTitle, ['=']⟩, ⟨itemEOF, []⟩] =
      parseTitle 9 [⟨itemWord, ['a']⟩, ⟨itemTitle, ['=']⟩, ⟨itemEOF, []⟩] ∧
    parseTitleAux [⟨itemWord, ['a']⟩]
      (⟨itemTitle, ['=', '=', '=']⟩ :: [⟨itemEOF, []⟩]) =
      ([⟨itemWord, ['a']⟩, ⟨itemTitle, ['=', '=', '=']⟩], [⟨itemEOF, []⟩]) ∧
    render (parseTitle 2
      [⟨itemSpace, [' ']⟩, ⟨itemWord, "Heading".toList⟩, ⟨itemSpace, [' ']⟩,
        ⟨itemTitle, ['=', '=']⟩, ⟨itemEOF, []⟩]).1 = " Heading ".toList :=
  ⟨parseTitle_accepts_any_closing_marker.1 2 9
      [⟨itemWord, ['a']⟩, ⟨itemTitle, ['=']⟩, ⟨itemEOF, []⟩],
    parseTitle_accepts_any_closing_marker.2.1 [⟨itemWord, ['a']⟩]
      ⟨itemTitle, ['=', '=', '=']⟩ [⟨itemEOF, []⟩] rfl,
    parseTitle_accepts_any_closing_marker.2.2.2.1 _ rfl⟩

/-- Claim C6: idempotence of tokenization on single-token texts — for every
`Word`, `Mark`, `Space`, `Quote` or `Title` item emitted by a completed
run, re-tokenizing that item's exact text in isolation produces exactly one
item of the same kind whose text is the whole input, followed by the
terminal `EndOfInput` item. -/
theorem retokenize_emitted_token (xr : XmlReader) (cc : CharClass)
    (input : List Char) (toks : List Item) (t : Item)
    (h : lexLine xr cc input = some toks) (ht : t ∈ toks)
    (hk : t.typ = itemWord ∨ t.typ = itemMark ∨ t.typ = itemSpace ∨
      t.typ = itemQuote ∨ t.typ = itemTitle) :
    lexLine xr cc t.val = some [⟨t.typ, t.val⟩, ⟨itemEOF, []⟩] :=
  lexA_retok xr cc _ _ _ _ h trivial t ht hk

theorem retokenize_emitted_token_witness :
    lexLine noXml asciiClass "hello".toList =
      some [⟨itemWord, "hello".toList⟩, ⟨itemEOF, []⟩] :=
  retokenize_emitted_token noXml asciiClass "hello world".toList
    [⟨itemWord, "hello".toList⟩, ⟨itemSpace, [' ']⟩,
      ⟨itemWord, "world".toList⟩, ⟨itemEOF, []⟩]
    ⟨itemWord, "hello".toList⟩ rfl (by simp) (Or.inl rfl)

/-- Claim C7: the numeric-literal recognizer is unreachable — a completed
run never emits an `itemNumber` item and never emits an `itemError` item
(the error path lives only in `lexNumber`, which the dispatch never
enters). -/
theorem lexLine_never_number_or_error (xr : XmlReader) (cc : CharClass)
    (input : List Char) (toks : List Item)
    (h : lexLine xr cc input = some toks) :
    ∀ t ∈ toks, t.typ ≠ itemNumber ∧ t.typ ≠ itemError := by
  obtain ⟨body, v, rfl, hb⟩ := lexA_shape xr cc _ _ _ _ h
  intro t ht
  rcases List.mem_append.mp ht with ht | ht
  · exact ⟨(hb t ht).2.2, (hb t ht).2.1⟩
  · obtain rfl : t = ⟨itemEOF, v⟩ := by simpa using ht
    exact ⟨by simp, by simp⟩

theorem lexLine_never_number_or_error_witness :
    (⟨itemWord, "42".toList⟩ : Item).typ ≠ itemNumber ∧
    (⟨itemWord, "42".toList⟩ : Item).typ ≠ itemError :=
  lexLine_never_number_or_error noXml asciiClass "42".toList
    [⟨itemWord, "42".toList⟩, ⟨itemEOF, []⟩] rfl
    ⟨itemWord, "42".toList⟩ (by simp)

/-- Claim C8 counterexample: when a dropped character is pending, the
emitted `XmlElement` item's text is the pending character followed by the
consumed construct — not exactly the consumed construct, contradicting
"whose text is exactly the consumed construct". -/
theorem xml_token_text_includes_pending :
    lexLine (xmlConsume 3) asciiClass [Char.ofNat 1, '<', 'a', '>'] =
      some [⟨itemXML, [Char.ofNat 1, '<', 'a', '>']⟩, ⟨itemEOF, []⟩] ∧
    (xmlConsume 3).rawToken ['<', 'a', '>'] = some 3 ∧
    (⟨itemXML, [Char.ofNat 1, '<', 'a', '>']⟩ : Item).val ≠ ['<', 'a', '>'] :=
  ⟨rfl, rfl, by decide⟩

/-- Claim C8 amended: on `<` the lexer consumes exactly one leniently
parsed XML construct, emits a single `XmlElement` item whose text is the
pending text since the last emission (normally empty) followed by exactly
the consumed construct, and advances the cursor by exactly the units the
sub-parse consumed; if the embedded parse fails, the whole run is aborted
rather than emitting a per-token `Error`.  On the clean line
`<ref name="x"/>` the single `XmlElement` item's text is exactly the whole
construct. -/
theorem lexXML_consumes_one_construct (xr : XmlReader) (cc : CharClass)
    (f : Nat) (p : List Char) (rs : List Char) :
    (∀ n, xr.rawToken ('<' :: rs) = some n →
      lexA xr cc (f + 1) p ('<' :: rs) =
        emitC ⟨itemXML, p ++ ('<' :: rs).take n⟩
          (lexA xr cc f [] (('<' :: rs).drop n))) ∧
    (xr.rawToken ('<' :: rs) = none →
      lexA xr cc (f + 1) p ('<' :: rs) = none) ∧
    lexLine (xmlConsume 15) asciiClass refLine =
      some [⟨itemXML, refLine⟩, ⟨itemEOF, []⟩] := by
  refine ⟨?_, ?_, rfl⟩
  · intro n hn
    rw [lexA_succ]
    simp only [lexBody]
    rw [dispatch_xmlChar cc rs.head?]
    dsimp only
    rw [hn]
  · intro hn
    rw [lexA_succ]
    simp only [lexBody]
    rw [dispatch_xmlChar cc rs.head?]
    dsimp only
    rw [hn]

theorem lexXML_consumes_one_construct_witness :
    lexA (xmlConsume 3) asciiClass 4 [] ['<', 'a', '>'] =
      emitC ⟨itemXML, ['<', 'a', '>']⟩
        (lexA (xmlConsume 3) asciiClass 3 [] []) ∧
    lexLine (xmlConsume 15) asciiClass refLine =
      some [⟨itemXML, refLine⟩, ⟨itemEOF, []⟩] :=
  ⟨(lexXML_consumes_one_construct (xmlConsume 3) asciiClass 3 []
      ['a', '>']).1 3 rfl,
    (lexXML_consumes_one_construct (xmlConsume 3) asciiClass 3 []
      ['a', '>']).2.2⟩

/-- Claim C9: for every input line on which the tokenizer runs to
completion, the concatenation of the text fields of all emitted items, in
emission order and including the terminal `EndOfInput` item's text, equals
the input line exactly — no character is lost or duplicated. -/
theorem token_texts_concat_to_input (xr : XmlReader) (cc : CharClass)
    (input : List Char) (toks : List Item)
    (h : lexLine xr cc input = some toks) :
    joinVals toks = input := by
  have h2 := lexA_join xr cc _ _ _ _ h
  simpa using h2

theorem token_texts_concat_to_input_witness :
    joinVals [⟨itemWord, "hello".toList⟩, ⟨itemSpace, [' ']⟩,
      ⟨itemWord, "world".toList⟩, ⟨itemEOF, []⟩] = "hello world".toList :=
  token_texts_concat_to_input noXml asciiClass "hello world".toList
    [⟨itemWord, "hello".toList⟩, ⟨itemSpace, [' ']⟩,
      ⟨itemWord, "world".toList⟩, ⟨itemEOF, []⟩] rfl

/-- Claim C10: whenever the link extractor terminates on an `itemRightTag`
item, the returned sequence's last element is that item itself, and
whenever the title extractor terminates on an `itemTitle` item, the
returned sequence's last element is that closing item (each terminator is
appended to the buffer before the loop exits). -/
theorem consumer_result_ends_with_terminator :
    (∀ (a : List Item) (rt : Item) (rest text : List Item),
      (∀ s ∈ a, s.typ ≠ itemEOF ∧ s.typ ≠ itemRightTag) →
      rt.typ = itemRightTag →
      ∃ b, parseLinkAux text (a ++ rt :: rest) = (b ++ [rt], rest)) ∧
    (∀ (a : List Item) (tt : Item) (rest result : List Item),
      (∀ s ∈ a, s.typ ≠ itemEOF ∧ s.typ ≠ itemTitle) →
      tt.typ = itemTitle →
      ∃ b, parseTitleAux result (a ++ tt :: rest) = (b ++ [tt], rest)) := by
  constructor
  · intro a
    induction a with
    | nil =>
      intro rt rest text _ hrt
      exact ⟨text, by simp [parseLinkAux, hrt]⟩
    | cons s a2 ih =>
      intro rt rest text ha hrt
      have hs := ha s (by simp)
      have hstep : parseLinkAux text (s :: (a2 ++ rt :: rest)) =
          parseLinkAux
            (if s.typ = itemMark ∧ s.val = ['|'] then [] else text ++ [s])
            (a2 ++ rt :: rest) := by
        simp only [parseLinkAux]
        rw [if_neg hs.1]
        rw [if_neg hs.2]
      rw [List.cons_append, hstep]
      exact ih rt rest _ (fun u hu => ha u (by simp [hu])) hrt
  · intro a
    induction a with
    | nil =>
      intro tt rest result _ htt
      exact ⟨result, by simp [parseTitleAux, htt]⟩
    | cons s a2 ih =>
      intro tt rest result ha htt
      have hs := ha s (by simp)
      have hstep : parseTitleAux result (s :: (a2 ++ tt :: rest)) =
          parseTitleAux (result ++ [s]) (a2 ++ tt :: rest) := by
        simp only [parseTitleAux]
        rw [if_neg hs.1]
        rw [if_neg hs.2]
      rw [List.cons_append, hstep]
      exact ih tt rest _ (fun u hu => ha u (by simp [hu])) htt

theorem consumer_result_ends_with_terminator_witness :
    (∃ b, parseLinkAux []
      ([⟨itemWord, ['a']⟩] ++ ⟨itemRightTag, [']', ']']⟩ :: [⟨itemEOF, []⟩]) =
      (b ++ [⟨itemRightTag, [']', ']']⟩], [⟨itemEOF, []⟩])) ∧
    (∃ b, parseTitleAux []
      ([⟨itemWord, ['a']⟩] ++ ⟨itemTitle, ['=']⟩ :: [⟨itemEOF, []⟩]) =
      (b ++ [⟨itemTitle, ['=']⟩], [⟨itemEOF, []⟩])) :=
  ⟨consumer_result_ends_with_terminator.1 [⟨itemWord, ['a']⟩]
      ⟨itemRightTag, [']', ']']⟩ [⟨itemEOF, []⟩] [] (by decide) rfl,
    consumer_result_ends_with_terminator.2 [⟨itemWord, ['a']⟩]
      ⟨itemTitle, ['=']⟩ [⟨itemEOF, []⟩] [] (by decide) rfl⟩

